import Mathlib

/-!
Shallow embedding of `src/run.py` (class `StockManager` and its helpers).

The mutable dictionary `self.stock` becomes an explicit association-list
state threaded through the handlers; a Python `raise StockError(...)` becomes
an `Option StockErr` component of the result, with the table component
carrying whatever mutations happened before the raise (Python mutates in
place, so effects before a raise persist).  An out-of-bounds subscript
(`parts[0]` on an empty list) is a Python `IndexError`, a different
exception class from `StockError`; it is modelled by a separate constructor.
-/

namespace StockRun

/-- The distinct `StockError` messages raised in `run.py`, as a sum type
carrying the fields interpolated into each message. -/
inductive StockErr where
  | invalidSku (token : String)
  | invalidAmount (token : String)
  | skuNotFound (sku : String)
  | insufficientStock (orderRef sku : String)
  | unknownCommand (op : String)
deriving DecidableEq, Repr

/-- Exceptions that can escape `process_command`: a `StockError`, or a
Python `IndexError` from an out-of-bounds list subscript. -/
inductive PyExc where
  | stockError (e : StockErr)
  | indexError
deriving DecidableEq, Repr

/-- `self.stock`: a string-keyed dictionary with integer values, embedded as
an association list with Python dict semantics (unique keys, assignment
updates in place or appends a new key). -/
abbrev Table := List (String × Int)

/-- Dictionary lookup: `self.stock[sku]` as an `Option`. -/
def findVal : Table → String → Option Int
  | [], _ => none
  | (k, v) :: rest, key => if k = key then some v else findVal rest key

/-- `sku in self.stock`. -/
def hasKey (t : Table) (k : String) : Bool :=
  (findVal t k).isSome

/-- `self.stock[sku]` where the key is known to be present (callers in
`run.py` guard every read with `sku not in self.stock`); absent keys
default to 0, a case never reached under that guard. -/
def getVal (t : Table) (k : String) : Int :=
  (findVal t k).getD 0

/-- `self.stock[sku] = v`: overwrite the existing binding or append. -/
def setVal : Table → String → Int → Table
  | [], k, v => [(k, v)]
  | (k', v') :: rest, k, v =>
    if k' = k then (k, v) :: rest else (k', v') :: setVal rest k v

/-- ASCII uppercase letter, the character class `[A-Z]`. -/
def isUpperAZ (c : Char) : Bool :=
  decide ('A' ≤ c) && decide (c ≤ 'Z')

/-- ASCII decimal digit, the character class `[0-9]`. -/
def isDigit09 (c : Char) : Bool :=
  decide ('0' ≤ c) && decide (c ≤ '9')

/-- The part of the SKU regex from the literal `-` on: a hyphen, then
`[0-9]{1,3}`, then `$`.  Python's `$` matches at the end of the string or
just before a newline that is the last character, hence the `['\n']`
alternative. -/
def skuAfterHyphen (l : List Char) : Bool :=
  match l with
  | [] => false
  | c :: rest =>
    let digits := rest.takeWhile isDigit09
    let tl := rest.dropWhile isDigit09
    decide (c = '-') && decide (1 ≤ digits.length) &&
      decide (digits.length ≤ 3) && (decide (tl = []) || decide (tl = ['\n']))

/-- `re.match(r"^[A-Z]{1,3}-[0-9]{1,3}$", sku)` as a total matcher on the
character list.  Greedy runs need no backtracking because `-` is in neither
character class. -/
def skuMatch (cs : List Char) : Bool :=
  let letters := cs.takeWhile isUpperAZ
  decide (1 ≤ letters.length) && decide (letters.length ≤ 3) &&
    skuAfterHyphen (cs.dropWhile isUpperAZ)

/-- `validate_sku`: raises `InvalidSkuFormat` when the regex does not match. -/
def validate_sku (sku : String) : Option StockErr :=
  if skuMatch sku.toList then none else some (StockErr.invalidSku sku)

/-- `amount.isdigit()` restricted to ASCII digit strings (non-empty, all
characters `0`-`9`); the claims under study use only ASCII inputs. -/
def isdigitAscii (cs : List Char) : Bool :=
  decide (cs ≠ []) && cs.all isDigit09

/-- `int(amount)` on a digit string: decimal value of the characters. -/
def strToNat (cs : List Char) : Nat :=
  cs.foldl (fun n c => n * 10 + (c.toNat - '0'.toNat)) 0

/-- `int(amount)` as the integer stored in the table. -/
def strToInt (s : String) : Int :=
  (strToNat s.toList : Int)

/-- `validate_amount`: passes iff `amount.isdigit()` and
`0 <= int(amount) <= 999`; the lower bound is automatic for a digit string. -/
def validate_amount (amount : String) : Option StockErr :=
  if isdigitAscii amount.toList && decide (strToNat amount.toList ≤ 999) then
    none
  else
    some (StockErr.invalidAmount amount)

/-- The whitespace characters `str.split()` splits on (ASCII subset; the
claims involve only ASCII input). -/
def pyIsSpace (c : Char) : Bool :=
  c = ' ' || c = '\t' || c = '\n' || c = '\r' || c = '\x0b' || c = '\x0c'

/-- Worker for tokenization: `acc` holds the characters of the token being
read, in reverse; a whitespace character (or the end) flushes it. -/
def splitCharsAux : List Char → List Char → List (List Char)
  | [], acc => if acc.isEmpty then [] else [acc.reverse]
  | c :: rest, acc =>
    if pyIsSpace c then
      (if acc.isEmpty then [] else [acc.reverse]) ++ splitCharsAux rest []
    else
      splitCharsAux rest (c :: acc)

/-- Tokenize on runs of whitespace, discarding empty tokens, as
`str.split()` with no separator argument does. -/
def splitChars (cs : List Char) : List (List Char) :=
  splitCharsAux cs []

/-- `instruction.split()`. -/
def pySplit (s : String) : List String :=
  (splitChars s.toList).map (fun cs => String.mk cs)

/-- `parts[::2]` (and, applied after `drop`, the other stride-2 slices). -/
def sliceStep2 : List α → List α
  | [] => []
  | [a] => [a]
  | a :: _ :: rest => a :: sliceStep2 rest

/-- `zip(parts[::2], parts[1::2])` starting from a token list: the
positional (SKU, amount) pairing used by all three handlers. -/
def zipPairs (parts : List String) : List (String × String) :=
  (sliceStep2 parts).zip (sliceStep2 (parts.drop 1))

/-- The `for sku, amount in zip(skus, amounts)` loop of `process_set_stock`:
a pair failing either validation is skipped (`except StockError: continue`),
otherwise `self.stock[sku] = int(amount)`. -/
def setStockLoop : Table → List (String × String) → Table
  | t, [] => t
  | t, (sku, amount) :: rest =>
    if (validate_sku sku).isSome || (validate_amount amount).isSome then
      setStockLoop t rest
    else
      setStockLoop (setVal t sku (strToInt amount)) rest

/-- `process_set_stock(parts)`. -/
def process_set_stock (t : Table) (parts : List String) : Table :=
  setStockLoop t (zipPairs parts)

/-- The pair loop of `process_add_stock`: format failures skip the pair; an
absent SKU raises `SkuNotFound` (aborting the loop, earlier increments
kept); otherwise `self.stock[sku] += int(amount)`. -/
def addStockLoop : Table → List (String × String) → Table × Option StockErr
  | t, [] => (t, none)
  | t, (sku, amount) :: rest =>
    if (validate_sku sku).isSome || (validate_amount amount).isSome then
      addStockLoop t rest
    else if hasKey t sku = false then
      (t, some (StockErr.skuNotFound sku))
    else
      addStockLoop (setVal t sku (getVal t sku + strToInt amount)) rest

/-- `process_add_stock(parts)`. -/
def process_add_stock (t : Table) (parts : List String) :
    Table × Option PyExc :=
  let r := addStockLoop t (zipPairs parts)
  (r.1, r.2.map PyExc.stockError)

/-- The pair loop of `process_order`: format failures skip the pair; an
absent SKU raises `SkuNotFound`; `self.stock[sku] < int(amount)` raises
`InsufficientStock` (both abort, earlier decrements kept); otherwise
`self.stock[sku] -= int(amount)`. -/
def orderLoop (orderRef : String) :
    Table → List (String × String) → Table × Option StockErr
  | t, [] => (t, none)
  | t, (sku, amount) :: rest =>
    if (validate_sku sku).isSome || (validate_amount amount).isSome then
      orderLoop orderRef t rest
    else if hasKey t sku = false then
      (t, some (StockErr.skuNotFound sku))
    else if getVal t sku < strToInt amount then
      (t, some (StockErr.insufficientStock orderRef sku))
    else
      orderLoop orderRef (setVal t sku (getVal t sku - strToInt amount)) rest

/-- `process_order(parts)`: `parts[0]` raises `IndexError` on an empty
list; otherwise it is the order reference, and the pairs are
`zip(parts[1::2], parts[2::2])`. -/
def process_order (t : Table) (parts : List String) : Table × Option PyExc :=
  match parts with
  | [] => (t, some PyExc.indexError)
  | orderRef :: rest =>
    let r := orderLoop orderRef t (zipPairs rest)
    (r.1, r.2.map PyExc.stockError)

/-- `process_command(instruction)`: tokenize, dispatch on the first token
(`parts[0]` raises `IndexError` when the line has no tokens), unknown
operations raise `StockError`. -/
def process_command (t : Table) (instruction : String) :
    Table × Option PyExc :=
  match pySplit instruction with
  | [] => (t, some PyExc.indexError)
  | operation :: args =>
    if operation = "set-stock" then
      (process_set_stock t args, none)
    else if operation = "add-stock" then
      process_add_stock t args
    else if operation = "order" then
      process_order t args
    else
      (t, some (PyExc.stockError (StockErr.unknownCommand operation)))

/-- The driver loop of `process_stock_file`: start from the empty table and
feed each line to `process_command`; `StockError`s are reported and the run
continues with the (possibly partially mutated) table. -/
def runProgram (instrs : List String) : Table :=
  instrs.foldl (fun t line => (process_command t line).1) []

/-- Modelled from the spec: the tail of the SKU grammar, a hyphen then 1-3
digits then the true end of the string (no trailing-newline allowance). -/
def specAfterHyphen (l : List Char) : Bool :=
  match l with
  | [] => false
  | c :: rest =>
    let digits := rest.takeWhile isDigit09
    let tl := rest.dropWhile isDigit09
    decide (c = '-') && decide (1 ≤ digits.length) &&
      decide (digits.length ≤ 3) && decide (tl = [])

/-- Modelled from the spec: the SKU grammar `[A-Z]{1,3}-[0-9]{1,3}` as a
full-string match with no extra characters at all (the spec's reading,
which does not admit Python's trailing-newline allowance for `$`). -/
def specSkuChars (cs : List Char) : Bool :=
  let letters := cs.takeWhile isUpperAZ
  decide (1 ≤ letters.length) && decide (letters.length ≤ 3) &&
    specAfterHyphen (cs.dropWhile isUpperAZ)

/-- All values of the table satisfy `P`. -/
def TableVals (P : Int → Prop) (t : Table) : Prop :=
  ∀ p ∈ t, P p.2

/-! ### Association-list (dict) lemmas -/

theorem findVal_setVal_self (t : Table) (k : String) (v : Int) :
    findVal (setVal t k v) k = some v := by
  induction t with
  | nil => simp [setVal, findVal]
  | cons p rest ih =>
    obtain ⟨k', v'⟩ := p
    by_cases h : k' = k
    · simp [setVal, findVal, h]
    · simp [setVal, findVal, h, ih]

theorem findVal_setVal_ne (t : Table) (k k' : String) (v : Int)
    (h : k' ≠ k) : findVal (setVal t k v) k' = findVal t k' := by
  have h' : k ≠ k' := Ne.symm h
  induction t with
  | nil => simp [setVal, findVal, h']
  | cons p rest ih =>
    obtain ⟨k₀, v₀⟩ := p
    by_cases hk : k₀ = k
    · subst hk
      simp [setVal, findVal, h']
    · by_cases hk' : k₀ = k'
      · subst hk'
        simp [setVal, findVal, hk, h']
      · simp [setVal, findVal, hk, hk', ih]

theorem findVal_mem {t : Table} {k : String} {v : Int}
    (h : findVal t k = some v) : (k, v) ∈ t := by
  induction t with
  | nil => simp [findVal] at h
  | cons p rest ih =>
    obtain ⟨k₀, v₀⟩ := p
    by_cases hk : k₀ = k
    · subst hk
      simp [findVal] at h
      simp [h]
    · simp [findVal, hk] at h
      exact List.mem_cons_of_mem _ (ih h)

theorem mem_setVal {t : Table} {k : String} {v : Int} {p : String × Int}
    (h : p ∈ setVal t k v) : p = (k, v) ∨ p ∈ t := by
  induction t with
  | nil => simp [setVal] at h; simp [h]
  | cons q rest ih =>
    obtain ⟨k₀, v₀⟩ := q
    by_cases hk : k₀ = k
    · simp [setVal, hk] at h
      rcases h with h | h
      · exact Or.inl h
      · exact Or.inr (List.mem_cons_of_mem _ h)
    · simp [setVal, hk] at h
      rcases h with h | h
      · exact Or.inr (by simp [h])
      · rcases ih h with h' | h'
        · exact Or.inl h'
        · exact Or.inr (List.mem_cons_of_mem _ h')

theorem hasKey_setVal_of {t : Table} {k' : String} (k : String) (v : Int)
    (h : hasKey t k' = true) : hasKey (setVal t k v) k' = true := by
  by_cases hk : k' = k
  · subst hk
    simp [hasKey, findVal_setVal_self]
  · simpa [hasKey, findVal_setVal_ne t k k' v hk] using h

theorem setVal_setVal_same (t : Table) (k : String) (v : Int) :
    setVal (setVal t k v) k v = setVal t k v := by
  induction t with
  | nil => simp [setVal]
  | cons p rest ih =>
    obtain ⟨k₀, v₀⟩ := p
    by_cases hk : k₀ = k
    · simp [setVal, hk]
    · simp [setVal, hk, ih]

theorem TableVals_setVal {P : Int → Prop} {t : Table} {k : String} {v : Int}
    (ht : TableVals P t) (hv : P v) : TableVals P (setVal t k v) := by
  intro p hp
  rcases mem_setVal hp with h | h
  · simpa [h] using hv
  · exact ht p h

theorem TableVals_getVal {P : Int → Prop} {t : Table} {k : String}
    (ht : TableVals P t) (hk : hasKey t k = true) : P (getVal t k) := by
  unfold hasKey at hk
  obtain ⟨v, hv⟩ := Option.isSome_iff_exists.mp hk
  have := ht (k, v) (findVal_mem hv)
  simpa [getVal, hv] using this

/-! ### Pairing lemmas: `zip(parts[::2], parts[1::2])` -/

@[simp] theorem zipPairs_nil : zipPairs [] = [] := rfl

@[simp] theorem zipPairs_single (a : String) : zipPairs [a] = [] := rfl

@[simp] theorem zipPairs_cons_cons (a b : String) (r : List String) :
    zipPairs (a :: b :: r) = (a, b) :: zipPairs r := by
  cases r with
  | nil => rfl
  | cons c r' => cases r' <;> simp [zipPairs, sliceStep2]

/-- An even-length token list followed by anything pairs up as the even part
followed by the pairs of the remainder. -/
theorem zipPairs_append_even (parts l : List String)
    (h : parts.length % 2 = 0) :
    zipPairs (parts ++ l) = zipPairs parts ++ zipPairs l := by
  induction parts using sliceStep2.induct with
  | case1 => simp
  | case2 a => simp [List.length_cons] at h
  | case3 a b r ih =>
    simp only [List.length_cons] at h
    simp only [List.cons_append, zipPairs_cons_cons]
    rw [ih (by omega)]

/-! ### Validation lemmas -/

theorem validate_amount_bounds {a : String} (h : validate_amount a = none) :
    0 ≤ strToInt a ∧ strToInt a ≤ 999 := by
  unfold validate_amount at h
  split at h
  · next hcond =>
    have h2 := (Bool.and_eq_true _ _).mp hcond |>.2
    refine ⟨Int.ofNat_nonneg _, ?_⟩
    unfold strToInt
    exact_mod_cast of_decide_eq_true h2
  · exact absurd h (by simp)

/-! ### Loop invariant lemmas -/

theorem setStockLoop_vals {P : Int → Prop}
    (hP : ∀ a, validate_amount a = none → P (strToInt a)) :
    ∀ (pairs : List (String × String)) (t : Table),
      TableVals P t → TableVals P (setStockLoop t pairs) := by
  intro pairs
  induction pairs with
  | nil => intro t ht; simpa [setStockLoop] using ht
  | cons pr rest ih =>
    intro t ht
    obtain ⟨sku, amount⟩ := pr
    unfold setStockLoop
    by_cases hv : ((validate_sku sku).isSome || (validate_amount amount).isSome) = true
    · simpa [hv] using ih t ht
    · have hamt : validate_amount amount = none := by
        cases h : validate_amount amount with
        | none => rfl
        | some e => exact absurd (by simp [h]) hv
      simp only [hv, if_false]
      exact ih _ (TableVals_setVal ht (hP _ hamt))

theorem addStockLoop_nonneg :
    ∀ (pairs : List (String × String)) (t : Table),
      TableVals (fun v => 0 ≤ v) t →
      TableVals (fun v => 0 ≤ v) (addStockLoop t pairs).1 := by
  intro pairs
  induction pairs with
  | nil => intro t ht; simpa [addStockLoop] using ht
  | cons pr rest ih =>
    intro t ht
    obtain ⟨sku, amount⟩ := pr
    unfold addStockLoop
    by_cases hv : ((validate_sku sku).isSome || (validate_amount amount).isSome) = true
    · simpa [hv] using ih t ht
    · have hamt : validate_amount amount = none := by
        cases h : validate_amount amount with
        | none => rfl
        | some e => exact absurd (by simp [h]) hv
      by_cases hk : hasKey t sku = false
      · simpa [hv, hk] using ht
      · simp only [hv, if_false, hk]
        refine ih _ (TableVals_setVal ht ?_)
        have hcur := TableVals_getVal ht (by simpa using hk)
        have := (validate_amount_bounds hamt).1
        omega

theorem orderLoop_vals {P : Int → Prop}
    (hstep : ∀ cur amt : Int, P cur → 0 ≤ amt → amt ≤ cur → P (cur - amt)) :
    ∀ (orderRef : String) (pairs : List (String × String)) (t : Table),
      TableVals P t → TableVals P (orderLoop orderRef t pairs).1 := by
  intro orderRef pairs
  induction pairs with
  | nil => intro t ht; simpa [orderLoop] using ht
  | cons pr rest ih =>
    intro t ht
    obtain ⟨sku, amount⟩ := pr
    unfold orderLoop
    by_cases hv : ((validate_sku sku).isSome || (validate_amount amount).isSome) = true
    · simpa [hv] using ih t ht
    · have hamt : validate_amount amount = none := by
        cases h : validate_amount amount with
        | none => rfl
        | some e => exact absurd (by simp [h]) hv
      by_cases hk : hasKey t sku = false
      · simpa [hv, hk] using ht
      · by_cases hins : getVal t sku < strToInt amount
        · simpa [hv, hk, hins] using ht
        · simp only [hv, if_false, hk, hins]
          refine ih _ (TableVals_setVal ht ?_)
          have hcur := TableVals_getVal ht (by simpa using hk)
          have hb := validate_amount_bounds hamt
          exact hstep _ _ hcur hb.1 (by omega)

theorem setStockLoop_hasKey :
    ∀ (pairs : List (String × String)) (t : Table) (k : String),
      hasKey t k = true → hasKey (setStockLoop t pairs) k = true := by
  intro pairs
  induction pairs with
  | nil => intro t k h; simpa [setStockLoop] using h
  | cons pr rest ih =>
    intro t k h
    obtain ⟨sku, amount⟩ := pr
    unfold setStockLoop
    by_cases hv : ((validate_sku sku).isSome || (validate_amount amount).isSome) = true
    · simpa [hv] using ih t k h
    · simp only [hv, if_false]
      exact ih _ _ (hasKey_setVal_of _ _ h)

theorem addStockLoop_hasKey :
    ∀ (pairs : List (String × String)) (t : Table) (k : String),
      hasKey t k = true → hasKey (addStockLoop t pairs).1 k = true := by
  intro pairs
  induction pairs with
  | nil => intro t k h; simpa [addStockLoop] using h
  | cons pr rest ih =>
    intro t k h
    obtain ⟨sku, amount⟩ := pr
    unfold addStockLoop
    by_cases hv : ((validate_sku sku).isSome || (validate_amount amount).isSome) = true
    · simpa [hv] using ih t k h
    · by_cases hk : hasKey t sku = false
      · simpa [hv, hk] using h
      · simp only [hv, if_false, hk]
        exact ih _ _ (hasKey_setVal_of _ _ h)

theorem orderLoop_hasKey :
    ∀ (orderRef : String) (pairs : List (String × String)) (t : Table)
      (k : String),
      hasKey t k = true → hasKey (orderLoop orderRef t pairs).1 k = true := by
  intro orderRef pairs
  induction pairs with
  | nil => intro t k h; simpa [orderLoop] using h
  | cons pr rest ih =>
    intro t k h
    obtain ⟨sku, amount⟩ := pr
    unfold orderLoop
    by_cases hv : ((validate_sku sku).isSome || (validate_amount amount).isSome) = true
    · simpa [hv] using ih t k h
    · by_cases hk : hasKey t sku = false
      · simpa [hv, hk] using h
      · by_cases hins : getVal t sku < strToInt amount
        · simpa [hv, hk, hins] using h
        · simp only [hv, if_false, hk, hins]
          exact ih _ _ (hasKey_setVal_of _ _ h)

/-! ### Command-level lemmas -/

theorem process_command_nonneg (t : Table) (s : String)
    (ht : TableVals (fun v => 0 ≤ v) t) :
    TableVals (fun v => 0 ≤ v) (process_command t s).1 := by
  unfold process_command
  cases h : pySplit s with
  | nil => simpa using ht
  | cons op args =>
    by_cases h1 : op = "set-stock"
    · simp only [h1, if_true]
      exact setStockLoop_vals (fun a ha => (validate_amount_bounds ha).1) _ t ht
    · by_cases h2 : op = "add-stock"
      · simp only [h1, if_false, h2, if_true, process_add_stock]
        exact addStockLoop_nonneg _ t ht
      · by_cases h3 : op = "order"
        · simp only [h1, if_false, h2, h3, if_true]
          cases args with
          | nil => simpa [process_order] using ht
          | cons orderRef rest =>
            simp only [process_order]
            exact orderLoop_vals (fun cur amt _ _ hle => by omega) _ _ t ht
        · simpa [h1, h2, h3] using ht

theorem process_command_le999 (t : Table) (s : String)
    (ht : TableVals (fun v => v ≤ 999) t)
    (hop : (pySplit s).head? ≠ some "add-stock") :
    TableVals (fun v => v ≤ 999) (process_command t s).1 := by
  unfold process_command
  cases h : pySplit s with
  | nil => simpa using ht
  | cons op args =>
    rw [h] at hop
    simp only [List.head?_cons, ne_eq, Option.some.injEq] at hop
    by_cases h1 : op = "set-stock"
    · simp only [h1, if_true]
      exact setStockLoop_vals (fun a ha => (validate_amount_bounds ha).2) _ t ht
    · by_cases h3 : op = "order"
      · simp only [h1, if_false, hop, h3, if_true]
        cases args with
        | nil => simpa [process_order] using ht
        | cons orderRef rest =>
          simp only [process_order]
          exact orderLoop_vals
            (fun cur amt hcur hnn _ => by omega) _ _ t ht
      · simpa [h1, hop, h3] using ht

theorem process_command_hasKey (t : Table) (s : String) (k : String)
    (hk : hasKey t k = true) :
    hasKey (process_command t s).1 k = true := by
  unfold process_command
  cases h : pySplit s with
  | nil => simpa using hk
  | cons op args =>
    by_cases h1 : op = "set-stock"
    · simp only [h1, if_true]
      exact setStockLoop_hasKey _ t k hk
    · by_cases h2 : op = "add-stock"
      · simp only [h1, if_false, h2, if_true, process_add_stock]
        exact addStockLoop_hasKey _ t k hk
      · by_cases h3 : op = "order"
        · simp only [h1, if_false, h2, h3, if_true]
          cases args with
          | nil => simpa [process_order] using hk
          | cons orderRef rest =>
            simp only [process_order]
            exact orderLoop_hasKey _ _ t k hk
        · simpa [h1, h2, h3] using hk

/-! ### Tokenization lemmas -/

theorem splitChars_all_space (cs : List Char) (h : cs.all pyIsSpace = true) :
    splitChars cs = [] := by
  unfold splitChars
  induction cs with
  | nil => simp [splitCharsAux]
  | cons c rest ih =>
    simp only [List.all_cons, Bool.and_eq_true] at h
    simp [splitCharsAux, h.1, ih h.2]

theorem pySplit_all_space (s : String) (h : s.toList.all pyIsSpace = true) :
    pySplit s = [] := by
  unfold pySplit
  rw [splitChars_all_space s.toList h]
  rfl

/-! ### takeWhile and dropWhile decompositions -/

theorem takeWhile_all_of_all {p : α → Bool} {l : List α}
    (h : ∀ x ∈ l, p x = true) :
    l.takeWhile p = l ∧ l.dropWhile p = [] := by
  induction l with
  | nil => simp
  | cons a rest ih =>
    have ha := h a (List.mem_cons_self a rest)
    obtain ⟨h1, h2⟩ := ih (fun x hx => h x (List.mem_cons_of_mem _ hx))
    simp [List.takeWhile_cons, List.dropWhile_cons, ha, h1, h2]

theorem takeWhile_append_all {p : α → Bool} {l : List α} (a : α) (r : List α)
    (hl : ∀ x ∈ l, p x = true) (ha : p a = false) :
    (l ++ a :: r).takeWhile p = l ∧ (l ++ a :: r).dropWhile p = a :: r := by
  have ha' : ¬ p a := by simp [ha]
  constructor
  · rw [List.takeWhile_append_of_pos hl, List.takeWhile_cons_of_neg ha',
      List.append_nil]
  · rw [List.dropWhile_append_of_pos hl, List.dropWhile_cons_of_neg ha']

/-! ### SKU matcher decompositions -/

theorem skuAfterHyphen_iff (l : List Char) :
    skuAfterHyphen l = true ↔
      ∃ D T, l = '-' :: (D ++ T) ∧ 1 ≤ D.length ∧ D.length ≤ 3 ∧
        (∀ c ∈ D, isDigit09 c = true) ∧ (T = [] ∨ T = ['\n']) := by
  constructor
  · intro h
    cases l with
    | nil => simp [skuAfterHyphen] at h
    | cons c rest =>
      simp only [skuAfterHyphen, Bool.and_eq_true, Bool.or_eq_true,
        decide_eq_true_eq] at h
      obtain ⟨⟨⟨hc, h1⟩, h2⟩, h3⟩ := h
      subst hc
      refine ⟨rest.takeWhile isDigit09, rest.dropWhile isDigit09, ?_, h1, h2,
        ?_, h3⟩
      · rw [List.takeWhile_append_dropWhile]
      · intro c hc
        exact List.mem_takeWhile_imp hc
  · rintro ⟨D, T, rfl, h1, h2, hD, hT⟩
    rcases hT with rfl | rfl
    · obtain ⟨ht, hd⟩ := takeWhile_all_of_all hD
      simp [skuAfterHyphen, List.append_nil, ht, hd, h1, h2]
    · obtain ⟨ht, hd⟩ :=
        takeWhile_append_all '\n' [] hD (show isDigit09 '\n' = false by decide)
      simp [skuAfterHyphen, ht, hd, h1, h2]

theorem specAfterHyphen_iff (l : List Char) :
    specAfterHyphen l = true ↔
      ∃ D, l = '-' :: D ∧ 1 ≤ D.length ∧ D.length ≤ 3 ∧
        (∀ c ∈ D, isDigit09 c = true) := by
  constructor
  · intro h
    cases l with
    | nil => simp [specAfterHyphen] at h
    | cons c rest =>
      simp only [specAfterHyphen, Bool.and_eq_true, decide_eq_true_eq] at h
      obtain ⟨⟨⟨hc, h1⟩, h2⟩, h3⟩ := h
      subst hc
      have hrest : rest = rest.takeWhile isDigit09 := by
        conv_lhs => rw [← List.takeWhile_append_dropWhile (p := isDigit09)
          (l := rest)]
        rw [h3, List.append_nil]
      refine ⟨rest.takeWhile isDigit09, by rw [← hrest], h1, h2, ?_⟩
      intro c hc
      exact List.mem_takeWhile_imp hc
  · rintro ⟨D, rfl, h1, h2, hD⟩
    obtain ⟨htake, hdrop⟩ := takeWhile_all_of_all hD
    simp [specAfterHyphen, htake, hdrop, h1, h2]

theorem skuMatch_iff (cs : List Char) :
    skuMatch cs = true ↔
      ∃ L D T, cs = L ++ '-' :: (D ++ T) ∧
        1 ≤ L.length ∧ L.length ≤ 3 ∧ (∀ c ∈ L, isUpperAZ c = true) ∧
        1 ≤ D.length ∧ D.length ≤ 3 ∧ (∀ c ∈ D, isDigit09 c = true) ∧
        (T = [] ∨ T = ['\n']) := by
  constructor
  · intro h
    simp only [skuMatch, Bool.and_eq_true, decide_eq_true_eq] at h
    obtain ⟨⟨h1, h2⟩, h3⟩ := h
    obtain ⟨D, T, hafter, hd1, hd2, hD, hT⟩ := (skuAfterHyphen_iff _).mp h3
    refine ⟨cs.takeWhile isUpperAZ, D, T, ?_, h1, h2, ?_, hd1, hd2, hD, hT⟩
    · conv_lhs => rw [← List.takeWhile_append_dropWhile (p := isUpperAZ)
        (l := cs)]
      rw [hafter]
    · intro c hc
      exact List.mem_takeWhile_imp hc
  · rintro ⟨L, D, T, rfl, h1, h2, hL, hd1, hd2, hD, hT⟩
    obtain ⟨htake, hdrop⟩ := takeWhile_append_all '-' (D ++ T) hL
      (show isUpperAZ '-' = false by decide)
    simp only [skuMatch, htake, hdrop, Bool.and_eq_true, decide_eq_true_eq]
    exact ⟨⟨h1, h2⟩, (skuAfterHyphen_iff _).mpr ⟨D, T, rfl, hd1, hd2, hD, hT⟩⟩

theorem specSkuChars_iff (cs : List Char) :
    specSkuChars cs = true ↔
      ∃ L D, cs = L ++ '-' :: D ∧
        1 ≤ L.length ∧ L.length ≤ 3 ∧ (∀ c ∈ L, isUpperAZ c = true) ∧
        1 ≤ D.length ∧ D.length ≤ 3 ∧ (∀ c ∈ D, isDigit09 c = true) := by
  constructor
  · intro h
    simp only [specSkuChars, Bool.and_eq_true, decide_eq_true_eq] at h
    obtain ⟨⟨h1, h2⟩, h3⟩ := h
    obtain ⟨D, hafter, hd1, hd2, hD⟩ := (specAfterHyphen_iff _).mp h3
    refine ⟨cs.takeWhile isUpperAZ, D, ?_, h1, h2, ?_, hd1, hd2, hD⟩
    · conv_lhs => rw [← List.takeWhile_append_dropWhile (p := isUpperAZ)
        (l := cs)]
      rw [hafter]
    · intro c hc
      exact List.mem_takeWhile_imp hc
  · rintro ⟨L, D, rfl, h1, h2, hL, hd1, hd2, hD⟩
    obtain ⟨htake, hdrop⟩ := takeWhile_append_all '-' D hL
      (show isUpperAZ '-' = false by decide)
    simp only [specSkuChars, htake, hdrop, Bool.and_eq_true, decide_eq_true_eq]
    exact ⟨⟨h1, h2⟩, (specAfterHyphen_iff _).mpr ⟨D, rfl, hd1, hd2, hD⟩⟩

/-- The Python matcher accepts exactly the spec grammar plus a single
trailing newline (the `$` allowance). -/
theorem skuMatch_eq_spec (cs : List Char) :
    skuMatch cs = true ↔
      (specSkuChars cs = true ∨
        ∃ u, cs = u ++ ['\n'] ∧ specSkuChars u = true) := by
  rw [skuMatch_iff]
  constructor
  · rintro ⟨L, D, T, rfl, h1, h2, hL, hd1, hd2, hD, hT⟩
    rcases hT with rfl | rfl
    · refine Or.inl ((specSkuChars_iff _).mpr ⟨L, D, ?_, h1, h2, hL, hd1, hd2, hD⟩)
      rw [List.append_nil]
    · refine Or.inr ⟨L ++ '-' :: D, ?_,
        (specSkuChars_iff _).mpr ⟨L, D, rfl, h1, h2, hL, hd1, hd2, hD⟩⟩
      simp
  · rintro (h | ⟨u, rfl, h⟩)
    · obtain ⟨L, D, rfl, h1, h2, hL, hd1, hd2, hD⟩ := (specSkuChars_iff _).mp h
      exact ⟨L, D, [], by rw [List.append_nil], h1, h2, hL, hd1, hd2, hD,
        Or.inl rfl⟩
    · obtain ⟨L, D, rfl, h1, h2, hL, hd1, hd2, hD⟩ := (specSkuChars_iff _).mp h
      exact ⟨L, D, ['\n'], by simp, h1, h2, hL, hd1, hd2, hD, Or.inr rfl⟩

/-! ### set-stock loop structure -/

theorem setStockLoop_append :
    ∀ (pre post : List (String × String)) (t : Table),
      setStockLoop t (pre ++ post) = setStockLoop (setStockLoop t pre) post := by
  intro pre
  induction pre with
  | nil => intro post t; simp [setStockLoop]
  | cons p rest ih =>
    intro post t
    obtain ⟨sku, amount⟩ := p
    by_cases hv : ((validate_sku sku).isSome || (validate_amount amount).isSome) = true
    · simp [setStockLoop, hv, ih]
    · simp [setStockLoop, hv, ih]

/-! ### order loop: partial-commit structure -/

theorem orderLoop_commits (orderRef : String) :
    ∀ (pairs : List (String × String)) (t : Table) (e : StockErr),
      (orderLoop orderRef t pairs).2 = some e →
      ∃ i, i < pairs.length ∧
        (orderLoop orderRef t (pairs.take i)).2 = none ∧
        (orderLoop orderRef t pairs).1 = (orderLoop orderRef t (pairs.take i)).1 ∧
        (orderLoop orderRef t (pairs.take (i + 1))).2 = some e ∧
        (orderLoop orderRef t (pairs.take (i + 1))).1 =
          (orderLoop orderRef t (pairs.take i)).1 ∧
        ((∃ sk, e = StockErr.skuNotFound sk) ∨
          (∃ sk, e = StockErr.insufficientStock orderRef sk)) := by
  intro pairs
  induction pairs with
  | nil => intro t e h; simp [orderLoop] at h
  | cons pr rest ih =>
    intro t e h
    obtain ⟨sku, amount⟩ := pr
    by_cases hv : ((validate_sku sku).isSome || (validate_amount amount).isSome) = true
    · have hskip : ∀ (u : Table) (l : List (String × String)),
          orderLoop orderRef u ((sku, amount) :: l) = orderLoop orderRef u l :=
        fun u l => by simp [orderLoop, hv]
      rw [hskip] at h
      obtain ⟨i, hlen, h1, h2, h3, h4, h5⟩ := ih t e h
      refine ⟨i + 1, by simpa using Nat.succ_lt_succ hlen, ?_, ?_, ?_, ?_, h5⟩
      · rw [List.take_succ_cons, hskip]
        exact h1
      · rw [hskip, List.take_succ_cons, hskip]
        exact h2
      · rw [List.take_succ_cons, hskip]
        exact h3
      · rw [List.take_succ_cons, hskip, List.take_succ_cons, hskip]
        exact h4
    · by_cases hk : hasKey t sku = false
      · have heq : ∀ l : List (String × String),
            orderLoop orderRef t ((sku, amount) :: l) =
              (t, some (StockErr.skuNotFound sku)) :=
          fun l => by simp [orderLoop, hv, hk]
        have he : e = StockErr.skuNotFound sku := by
          rw [heq] at h
          exact (Option.some.inj h).symm
        refine ⟨0, by simp, ?_, ?_, ?_, ?_, Or.inl ⟨sku, he⟩⟩
        · simp [orderLoop]
        · rw [heq]
          simp [orderLoop]
        · rw [List.take_succ_cons, heq, he]
        · rw [List.take_succ_cons, heq]
          simp [orderLoop]
      · by_cases hins : getVal t sku < strToInt amount
        · have heq : ∀ l : List (String × String),
              orderLoop orderRef t ((sku, amount) :: l) =
                (t, some (StockErr.insufficientStock orderRef sku)) :=
            fun l => by simp [orderLoop, hv, hk, hins]
          have he : e = StockErr.insufficientStock orderRef sku := by
            rw [heq] at h
            exact (Option.some.inj h).symm
          refine ⟨0, by simp, ?_, ?_, ?_, ?_, Or.inr ⟨sku, he⟩⟩
          · simp [orderLoop]
          · rw [heq]
            simp [orderLoop]
          · rw [List.take_succ_cons, heq, he]
          · rw [List.take_succ_cons, heq]
            simp [orderLoop]
        · have hstep : ∀ l : List (String × String),
              orderLoop orderRef t ((sku, amount) :: l) =
                orderLoop orderRef
                  (setVal t sku (getVal t sku - strToInt amount)) l :=
            fun l => by simp [orderLoop, hv, hk, hins]
          rw [hstep] at h
          obtain ⟨i, hlen, h1, h2, h3, h4, h5⟩ :=
            ih (setVal t sku (getVal t sku - strToInt amount)) e h
          refine ⟨i + 1, by simpa using Nat.succ_lt_succ hlen, ?_, ?_, ?_, ?_, h5⟩
          · rw [List.take_succ_cons, hstep]
            exact h1
          · rw [hstep, List.take_succ_cons, hstep]
            exact h2
          · rw [List.take_succ_cons, hstep]
            exact h3
          · rw [List.take_succ_cons, hstep, List.take_succ_cons, hstep]
            exact h4

/-! ### Driver-loop invariants -/

theorem foldl_process_nonneg :
    ∀ (instrs : List String) (t : Table),
      TableVals (fun v => 0 ≤ v) t →
      TableVals (fun v => 0 ≤ v)
        (instrs.foldl (fun u line => (process_command u line).1) t) := by
  intro instrs
  induction instrs with
  | nil => intro t ht; simpa using ht
  | cons l rest ih =>
    intro t ht
    simp only [List.foldl_cons]
    exact ih _ (process_command_nonneg t l ht)

theorem foldl_process_le999 :
    ∀ (instrs : List String) (t : Table),
      TableVals (fun v => v ≤ 999) t →
      (∀ l ∈ instrs, (pySplit l).head? ≠ some "add-stock") →
      TableVals (fun v => v ≤ 999)
        (instrs.foldl (fun u line => (process_command u line).1) t) := by
  intro instrs
  induction instrs with
  | nil => intro t ht _; simpa using ht
  | cons l rest ih =>
    intro t ht hop
    simp only [List.foldl_cons]
    exact ih _
      (process_command_le999 t l ht (hop l (List.mem_cons_self l rest)))
      (fun x hx => hop x (List.mem_cons_of_mem _ hx))

/-! ### Claim theorems -/

/-- C1 (counterexample): processing `set-stock AB-6 999` then
`add-stock AB-6 999` from the empty table leaves AB-6 at 1998, so the
claimed [0, 999] bound is not preserved by the add-stock handler. -/
theorem c1_add_exceeds_bound_cex :
    findVal (runProgram ["set-stock AB-6 999", "add-stock AB-6 999"]) "AB-6" =
        some 1998 ∧ ¬(1998 : Int) ≤ 999 := by
  exact ⟨by decide, by decide⟩

/-- C1 (amended): for every sequence of instructions processed from the
empty table, every stored quantity is non-negative at all times; and the
999 upper bound holds whenever no instruction of the sequence is an
add-stock (set-stock and order preserve [0, 999], while add-stock may push
a value above 999). -/
theorem c1_stock_bounds (instrs : List String) :
    TableVals (fun v => 0 ≤ v) (runProgram instrs) ∧
      ((∀ l ∈ instrs, (pySplit l).head? ≠ some "add-stock") →
        TableVals (fun v => v ≤ 999) (runProgram instrs)) := by
  have hempty : ∀ P : Int → Prop, TableVals P ([] : Table) := by
    intro P p hp
    cases hp
  exact ⟨foldl_process_nonneg instrs [] (hempty _),
    fun h => foldl_process_le999 instrs [] (hempty _) h⟩

/-- C1 (witness): both bounds hold after a concrete add-stock-free run. -/
theorem c1_stock_bounds_witness :
    TableVals (fun v => 0 ≤ v) (runProgram ["set-stock AB-6 100"]) ∧
      TableVals (fun v => v ≤ 999) (runProgram ["set-stock AB-6 100"]) :=
  ⟨(c1_stock_bounds ["set-stock AB-6 100"]).1,
   (c1_stock_bounds ["set-stock AB-6 100"]).2 (by decide)⟩

/-- C2: when an order instruction raises a domain error, the final table is
exactly the one obtained by processing only the pairs before the first
failing pair: earlier decrements stay committed, the failing pair and all
later pairs contribute nothing, and the error is a SkuNotFound or an
InsufficientStock for this order reference. -/
theorem c2_order_partial_commit (t : Table) (orderRef : String)
    (rest : List String) (e : StockErr)
    (h : (process_order t (orderRef :: rest)).2 = some (PyExc.stockError e)) :
    ∃ i, i < (zipPairs rest).length ∧
      (orderLoop orderRef t ((zipPairs rest).take i)).2 = none ∧
      (process_order t (orderRef :: rest)).1 =
        (orderLoop orderRef t ((zipPairs rest).take i)).1 ∧
      (orderLoop orderRef t ((zipPairs rest).take (i + 1))).2 = some e ∧
      (orderLoop orderRef t ((zipPairs rest).take (i + 1))).1 =
        (orderLoop orderRef t ((zipPairs rest).take i)).1 ∧
      ((∃ sk, e = StockErr.skuNotFound sk) ∨
        (∃ sk, e = StockErr.insufficientStock orderRef sk)) := by
  have hp : process_order t (orderRef :: rest) =
      ((orderLoop orderRef t (zipPairs rest)).1,
        (orderLoop orderRef t (zipPairs rest)).2.map PyExc.stockError) := rfl
  rw [hp] at h ⊢
  have h2 : (orderLoop orderRef t (zipPairs rest)).2 = some e := by
    cases hc : (orderLoop orderRef t (zipPairs rest)).2 with
    | none =>
      rw [hc] at h
      simp at h
    | some e' =>
      rw [hc] at h
      simp only [Option.map_some', Option.some.injEq,
        PyExc.stockError.injEq] at h
      rw [h]
  obtain ⟨i, hlen, h1, hTab, h3, h4, h5⟩ :=
    orderLoop_commits orderRef (zipPairs rest) t e h2
  exact ⟨i, hlen, h1, hTab, h3, h4, h5⟩

/-- C2 (witness): `order ON-1 AB-6 30 ZZ-9 1` on a table stocking only
AB-6 commits the first decrement, then aborts on the unknown ZZ-9. -/
theorem c2_order_partial_commit_witness :
    ∃ i,
      i < (zipPairs ["AB-6", "30", "ZZ-9", "1"]).length ∧
      (orderLoop "ON-1" [("AB-6", 100)]
        ((zipPairs ["AB-6", "30", "ZZ-9", "1"]).take i)).2 = none ∧
      (process_order [("AB-6", 100)]
        ("ON-1" :: ["AB-6", "30", "ZZ-9", "1"])).1 =
        (orderLoop "ON-1" [("AB-6", 100)]
          ((zipPairs ["AB-6", "30", "ZZ-9", "1"]).take i)).1 ∧
      (orderLoop "ON-1" [("AB-6", 100)]
        ((zipPairs ["AB-6", "30", "ZZ-9", "1"]).take (i + 1))).2 =
        some (StockErr.skuNotFound "ZZ-9") ∧
      (orderLoop "ON-1" [("AB-6", 100)]
        ((zipPairs ["AB-6", "30", "ZZ-9", "1"]).take (i + 1))).1 =
        (orderLoop "ON-1" [("AB-6", 100)]
          ((zipPairs ["AB-6", "30", "ZZ-9", "1"]).take i)).1 ∧
      ((∃ sk, StockErr.skuNotFound "ZZ-9" = StockErr.skuNotFound sk) ∨
        (∃ sk, StockErr.skuNotFound "ZZ-9" =
          StockErr.insufficientStock "ON-1" sk)) :=
  c2_order_partial_commit [("AB-6", 100)] "ON-1" ["AB-6", "30", "ZZ-9", "1"]
    (StockErr.skuNotFound "ZZ-9") (by decide)

/-- C3 (counterexample): on the empty line, `process_command` raises
IndexError (from `parts[0]`), not the UnknownOperation StockError with an
empty operation name that the claim asserts. -/
theorem c3_empty_line_cex :
    process_command [] "" = ([], some PyExc.indexError) ∧
      some PyExc.indexError ≠
        some (PyExc.stockError (StockErr.unknownCommand "")) := by
  exact ⟨by decide, by decide⟩

/-- C3 (amended): on an empty or whitespace-only line, `process_command`
raises an out-of-bounds IndexError (not a StockError) and performs no
mutation of the table. -/
theorem c3_blank_line_index_error (t : Table) (s : String)
    (h : s.toList.all pyIsSpace = true) :
    process_command t s = (t, some PyExc.indexError) := by
  unfold process_command
  rw [pySplit_all_space s h]

/-- C3 (witness): a concrete whitespace-only line on a non-empty table. -/
theorem c3_blank_line_index_error_witness :
    process_command [("AB-6", 7)] " \t " =
      ([("AB-6", 7)], some PyExc.indexError) :=
  c3_blank_line_index_error [("AB-6", 7)] " \t " (by decide)

/-- C4 (counterexample): `validate_sku` accepts `"AB-6\n"` (Python's `$`
matches before a trailing newline), although that string does not match the
grammar as a full-string match with no trailing newline. -/
theorem c4_trailing_newline_cex :
    validate_sku "AB-6\n" = none ∧
      specSkuChars "AB-6\n".toList = false := by
  exact ⟨by decide, by decide⟩

/-- C4 (amended): `validate_sku` succeeds exactly on strings matching
`[A-Z]{1,3}-[0-9]{1,3}` either as an exact full-string match or followed by
one single trailing newline character; every other string fails with
InvalidSkuFormat (and validation is pure, mutating no state). -/
theorem c4_validate_sku_characterization (s : String) :
    (validate_sku s = none ↔
      (specSkuChars s.toList = true ∨
        ∃ u, s.toList = u ++ ['\n'] ∧ specSkuChars u = true)) ∧
    (validate_sku s = none ∨
      validate_sku s = some (StockErr.invalidSku s)) := by
  constructor
  · rw [← skuMatch_eq_spec]
    unfold validate_sku
    by_cases hm : skuMatch s.toList <;> simp [hm]
  · unfold validate_sku
    by_cases hm : skuMatch s.toList <;> simp [hm]

/-- C5: set-stock pairs tokens positionally, drops a trailing unpaired
token, skips exactly the pairs failing validation while applying all other
pairs, and a successful pair sets the table entry to its amount,
overwriting any prior value. -/
theorem c5_set_stock_pair_handling :
    (∀ (t : Table) (parts : List String) (x : String),
        parts.length % 2 = 0 →
        process_set_stock t (parts ++ [x]) = process_set_stock t parts) ∧
    (∀ (t : Table) (pre post : List (String × String)) (sku amount : String),
        ((validate_sku sku).isSome || (validate_amount amount).isSome) = true →
        setStockLoop t (pre ++ (sku, amount) :: post) =
          setStockLoop t (pre ++ post)) ∧
    (∀ (t : Table) (pre : List (String × String)) (sku amount : String),
        validate_sku sku = none → validate_amount amount = none →
        findVal (setStockLoop t (pre ++ [(sku, amount)])) sku =
          some (strToInt amount)) ∧
    (∀ (t : Table) (parts : List String),
        process_set_stock t parts =
          setStockLoop t
            ((sliceStep2 parts).zip (sliceStep2 (parts.drop 1)))) := by
  refine ⟨?_, ?_, ?_, ?_⟩
  · intro t parts x h
    unfold process_set_stock
    rw [zipPairs_append_even parts [x] h, zipPairs_single, List.append_nil]
  · intro t pre post sku amount hv
    rw [setStockLoop_append, setStockLoop_append]
    simp [setStockLoop, hv]
  · intro t pre sku amount hsku hamount
    rw [setStockLoop_append]
    simp [setStockLoop, hsku, hamount, findVal_setVal_self]
  · intro t parts
    rfl

/-- C5 (witness): a trailing token is dropped, a malformed pair is skipped
while its sibling applies, and a later pair overwrites an earlier value. -/
theorem c5_set_stock_pair_handling_witness :
    process_set_stock [] (["AB-6", "100"] ++ ["XX"]) =
        process_set_stock [] ["AB-6", "100"] ∧
      setStockLoop [] ([] ++ ("A1-6", "5") :: [("CD-3", "7")]) =
        setStockLoop [] ([] ++ [("CD-3", "7")]) ∧
      findVal (setStockLoop [] ([("AB-6", "1")] ++ [("AB-6", "42")])) "AB-6" =
        some (strToInt "42") :=
  ⟨c5_set_stock_pair_handling.1 [] ["AB-6", "100"] "XX" (by decide),
   c5_set_stock_pair_handling.2.1 [] [] [("CD-3", "7")] "A1-6" "5" (by decide),
   c5_set_stock_pair_handling.2.2.1 [] [("AB-6", "1")] "AB-6" "42"
     (by decide) (by decide)⟩

/-- C6: a well-formed add-stock pair whose SKU is absent makes the whole
instruction fail immediately with SkuNotFound, the remaining pairs are
never processed, and the absent SKU is not inserted as a key. -/
theorem c6_add_stock_absent_sku (t : Table) (sku amount : String)
    (rest : List (String × String)) (more : List String)
    (hsku : validate_sku sku = none) (hamount : validate_amount amount = none)
    (habs : hasKey t sku = false) :
    addStockLoop t ((sku, amount) :: rest) =
        (t, some (StockErr.skuNotFound sku)) ∧
      hasKey (addStockLoop t ((sku, amount) :: rest)).1 sku = false ∧
      process_add_stock t (sku :: amount :: more) =
        (t, some (PyExc.stockError (StockErr.skuNotFound sku))) := by
  have hloop : ∀ l : List (String × String),
      addStockLoop t ((sku, amount) :: l) =
        (t, some (StockErr.skuNotFound sku)) :=
    fun l => by simp [addStockLoop, hsku, hamount, habs]
  refine ⟨hloop rest, ?_, ?_⟩
  · rw [hloop rest]
    exact habs
  · unfold process_add_stock
    rw [zipPairs_cons_cons, hloop (zipPairs more)]
    rfl

/-- C6 (witness): adding to the unseeded ZF-9 fails and creates no key. -/
theorem c6_add_stock_absent_sku_witness :
    addStockLoop [("AB-6", 1)] (("ZF-9", "20") :: [("AB-6", "5")]) =
        ([("AB-6", 1)], some (StockErr.skuNotFound "ZF-9")) ∧
      hasKey (addStockLoop [("AB-6", 1)]
        (("ZF-9", "20") :: [("AB-6", "5")])).1 "ZF-9" = false ∧
      process_add_stock [("AB-6", 1)] ("ZF-9" :: "20" :: ["AB-6", "5"]) =
        ([("AB-6", 1)], some (PyExc.stockError (StockErr.skuNotFound "ZF-9"))) :=
  c6_add_stock_absent_sku [("AB-6", 1)] "ZF-9" "20" [("AB-6", "5")]
    ["AB-6", "5"] (by decide) (by decide) (by decide)

/-- C7: an order pair whose amount exceeds the current level aborts with
InsufficientStock and mutates nothing, and processing any command on a
table with non-negative values leaves all values non-negative. -/
theorem c7_order_never_negative :
    (∀ (t : Table) (instr : String),
        TableVals (fun v => 0 ≤ v) t →
        TableVals (fun v => 0 ≤ v) (process_command t instr).1) ∧
    (∀ (orderRef : String) (t : Table) (sku amount : String)
        (rest : List (String × String)),
        validate_sku sku = none → validate_amount amount = none →
        hasKey t sku = true → getVal t sku < strToInt amount →
        orderLoop orderRef t ((sku, amount) :: rest) =
          (t, some (StockErr.insufficientStock orderRef sku))) := by
  constructor
  · exact process_command_nonneg
  · intro orderRef t sku amount rest hsku hamount hk hlt
    simp [orderLoop, hsku, hamount, hk, hlt]

/-- C7 (witness): ordering 9 of a stock of 5 reports InsufficientStock with
no mutation, and values stay non-negative through `process_command`. -/
theorem c7_order_never_negative_witness :
    TableVals (fun v => 0 ≤ v)
        (process_command [("AB-6", 5)] "order ON-1 AB-6 9").1 ∧
      orderLoop "ON-1" [("AB-6", 5)] [("AB-6", "9")] =
        ([("AB-6", 5)], some (StockErr.insufficientStock "ON-1" "AB-6")) :=
  ⟨c7_order_never_negative.1 [("AB-6", 5)] "order ON-1 AB-6 9"
      (by intro p hp; rcases List.mem_singleton.mp hp with rfl; norm_num),
   c7_order_never_negative.2 "ON-1" [("AB-6", 5)] "AB-6" "9" []
     (by decide) (by decide) (by decide) (by decide)⟩

/-- C8: set-stock is idempotent per SKU: applying the instruction
arguments `X N` a second time leaves the table unchanged, and the final
value stored for X is N after either one or two applications. -/
theorem c8_set_stock_idempotent (t : Table) (X N : String)
    (hX : validate_sku X = none) (hN : validate_amount N = none) :
    process_set_stock (process_set_stock t [X, N]) [X, N] =
        process_set_stock t [X, N] ∧
      findVal (process_set_stock t [X, N]) X = some (strToInt N) := by
  have hstep : ∀ u : Table,
      process_set_stock u [X, N] = setVal u X (strToInt N) := by
    intro u
    unfold process_set_stock
    rw [show zipPairs [X, N] = [(X, N)] from rfl]
    simp [setStockLoop, hX, hN]
  constructor
  · rw [hstep, hstep, setVal_setVal_same]
  · rw [hstep, findVal_setVal_self]

/-- C8 (witness): setting AB-6 to 100 twice equals setting it once. -/
theorem c8_set_stock_idempotent_witness :
    process_set_stock (process_set_stock [] ["AB-6", "100"]) ["AB-6", "100"] =
        process_set_stock [] ["AB-6", "100"] ∧
      findVal (process_set_stock [] ["AB-6", "100"]) "AB-6" =
        some (strToInt "100") :=
  c8_set_stock_idempotent [] "AB-6" "100" (by decide) (by decide)

/-- C9: the bare instruction `order` reaches `parts[0]` on an empty
argument list, raising IndexError rather than any StockError, with no
mutation; the order reference's presence is never validated. -/
theorem c9_bare_order_index_error (t : Table) :
    process_command t "order" = (t, some PyExc.indexError) ∧
      ∀ e : StockErr, PyExc.indexError ≠ PyExc.stockError e := by
  constructor
  · rfl
  · intro e hc
    exact PyExc.noConfusion hc

/-- C10: no operation removes a key: any SKU present before a
`process_command` call is still present afterwards. -/
theorem c10_keys_never_removed (t : Table) (instr : String) (sku : String)
    (h : hasKey t sku = true) :
    hasKey (process_command t instr).1 sku = true :=
  process_command_hasKey t instr sku h

/-- C10 (witness): a key ordered down to level 0 is still present. -/
theorem c10_keys_never_removed_witness :
    hasKey (process_command [("AB-6", 3)] "order ON-1 AB-6 3").1 "AB-6" =
      true :=
  c10_keys_never_removed [("AB-6", 3)] "order ON-1 AB-6 3" "AB-6" (by decide)

end StockRun
